import Mathlib

/-!
Shallow embedding of the trust-aware forwarding node of
`src/Final_proj/Mal_node.c` (Contiki/Rime).  The neighbor table is the
linked list `neighbor_table` (iteration order = list order); each entry
is a `struct neighbor`.  The four event handlers (`recv`, `forward`,
`broadcast_recv`, and the `ctimer` callback `remove_neighbor`) are
translated as pure state transformers.  C `int` trust values are
modelled as `Int`; C integer division truncates toward zero, which is
`Int.tdiv`.  Timestamps (`clock_seconds()`, `last_received`) are C
`unsigned long`; their subtraction is modelled exactly (mod 2^64) by
`elapsed`.  Timer state (`ctimer`) is modelled as the absolute deadline
in seconds.
-/

/-- A Rime link address: two octets (`linkaddr_t`). -/
structure Addr where
  u0 : Nat
  u1 : Nat
deriving DecidableEq, Repr

/-- `sink_addr`, set to 1.0 in `multihop_process`. -/
def SINK : Addr := ⟨1, 0⟩

/-- `#define MAX_NEIGHBORS 16`. -/
def MAX_NEIGHBORS : Nat := 16

/-- `#define MAT 50` (minimum acceptable trust). -/
def MAT : Int := 50

/-- `#define MINIMUM_DELAY 5` (seconds). -/
def MINIMUM_DELAY : Nat := 5

/-- `#define NEIGHBOR_TIMEOUT 10 * CLOCK_SECOND`, in seconds. -/
def NEIGHBOR_TIMEOUT : Nat := 10

/-- `struct neighbor`: address, trust (C `int`), `last_received`
(seconds, C `unsigned long`), and the `ctimer` deadline in seconds. -/
structure Neighbor where
  addr : Addr
  trust : Int
  lastReceived : Nat
  expiry : Nat
deriving DecidableEq, Repr

/-- The node's state: its own address (`linkaddr_node_addr`) and the
`neighbor_table` list in iteration (= insertion) order. -/
structure NodeState where
  selfAddr : Addr
  table : List Neighbor
deriving DecidableEq, Repr

/-- C `unsigned long` subtraction `now - last` (both values below
`2^64`), as used in `clock_seconds() - n->last_received`. -/
def elapsed (now last : Nat) : Nat := (now + 2 ^ 64 - last) % 2 ^ 64

/-- The C statement `n->trust *= 0.99` converts `trust` to `double`,
multiplies by `0.99`, and truncates back to `int`.  For every
`0 ≤ t ≤ 200` (exhaustively checked; in particular on the reachable
range `[0,100]`) the double computation yields exactly `t * 99 / 100`
truncated toward zero, which is the embedding used here. -/
def penalize (t : Int) : Int := Int.tdiv (t * 99) 100

/-- `addr_is_blocked` (Mal_node.c:310-321): linear scan, true iff some
entry matches `a` and has `trust < MAT`. -/
def addr_is_blocked (tbl : List Neighbor) (a : Addr) : Bool :=
  tbl.any fun n => decide (a = n.addr ∧ n.trust < MAT)

/-- The walk in `forward` (Mal_node.c:209-211): step `i` times from the
list head; `none` when the list runs out first. -/
def walkTo : List Neighbor → Nat → Option Neighbor
  | [], _ => none
  | n :: _, 0 => some n
  | _ :: rest, i + 1 => walkTo rest i

/-- The per-entry body of the `prevhop` loop in `forward`
(Mal_node.c:195-204): rearm the entry's ctimer, apply the
rapid-forward penalty when the previous forward was under
`MINIMUM_DELAY` seconds ago and `trust > 49`, then set
`last_received = clock_seconds()`. -/
def penalizeEntry (prevhop : Addr) (now : Nat) (n : Neighbor) : Neighbor :=
  if prevhop = n.addr then
    let n1 : Neighbor := { n with expiry := now + NEIGHBOR_TIMEOUT }
    let n2 : Neighbor :=
      if elapsed now n1.lastReceived < MINIMUM_DELAY ∧ n1.trust > 49 then
        { n1 with trust := penalize n1.trust }
      else n1
    { n2 with lastReceived := now }
  else n

/-- `forward` (Mal_node.c:180-223).  Inputs that matter to the core:
the previous hop, the RNG draw `random_rand()`, and the current time.
Returns the updated state and the chosen next hop (`NULL` = `none`). -/
def forward (s : NodeState) (prevhop : Addr) (rnd now : Nat) :
    NodeState × Option Addr :=
  if prevhop ≠ s.selfAddr ∧ addr_is_blocked s.table prevhop = true then
    (s, none)
  else
    let tbl := s.table.map (penalizeEntry prevhop now)
    if 0 < tbl.length then
      ({ s with table := tbl }, (walkTo tbl (rnd % tbl.length)).map (·.addr))
    else
      ({ s with table := tbl }, none)

/-- `recv` (Mal_node.c:155-178): drop if the sender is blocked,
otherwise rearm the ctimer of every entry matching the sender. -/
def recv (s : NodeState) (sender : Addr) (now : Nat) : NodeState :=
  if addr_is_blocked s.table sender = true then s
  else
    { s with
      table := s.table.map fun e =>
        if sender = e.addr then { e with expiry := now + NEIGHBOR_TIMEOUT }
        else e }

/-- One entry's update for one received pair in `update_table`
(Mal_node.c:293-301): average the trusts when the pair's address
matches and its trust differs, then clamp the sink entry to 100. -/
def mergePairEntry (p : Addr × Int) (e : Neighbor) : Neighbor :=
  let e1 : Neighbor :=
    if p.1 = e.addr ∧ p.2 ≠ e.trust then
      { e with trust := Int.tdiv (e.trust + p.2) 2 }
    else e
  if e1.addr = SINK then { e1 with trust := 100 } else e1

/-- One iteration of the outer loop of `update_table`: the inner loop
visits every entry. -/
def mergePair (tbl : List Neighbor) (p : Addr × Int) : List Neighbor :=
  tbl.map (mergePairEntry p)

/-- The pairs actually processed by `update_table`: the outer loop runs
`i = 0 .. MAX_NEIGHBORS-1` and breaks at the first `nt[i].trust == 0`
(a wire buffer shorter than 16 records is zero-padded by
`packetbuf_copyto` into the zero-initialised array, so a short list
behaves the same). -/
def livePairs (v : List (Addr × Int)) : List (Addr × Int) :=
  (v.take MAX_NEIGHBORS).takeWhile fun p => decide (p.2 ≠ 0)

/-- `update_table` (Mal_node.c:284-308). -/
def update_table (tbl : List Neighbor) (v : List (Addr × Int)) :
    List Neighbor :=
  (livePairs v).foldl mergePair tbl

/-- `broadcast_recv` (Mal_node.c:254-281).  If `from` is known:
refuse when its trust is `< 50`, otherwise merge the received vector.
If unknown: allocate a fresh entry when the `MEMB` pool has room
(entries are never freed, so the pool has room iff the table holds
fewer than `MAX_NEIGHBORS` entries), then merge in either case. -/
def broadcast_recv (s : NodeState) (f : Addr) (v : List (Addr × Int))
    (now : Nat) : NodeState :=
  match s.table.find? (fun e => decide (f = e.addr)) with
  | some e =>
      if e.trust < 50 then s
      else { s with table := update_table s.table v }
  | none =>
      let tbl1 :=
        if s.table.length < MAX_NEIGHBORS then
          s.table ++ [{ addr := f, trust := 100, lastReceived := now,
                        expiry := now + NEIGHBOR_TIMEOUT }]
        else s.table
      { s with table := update_table tbl1 v }

/-- `remove_neighbor` (Mal_node.c:323-337), the ctimer expiry callback.
The C callback receives the entry's pointer; it is modelled by the
entry's position `idx` in the table.  Sink entry: do nothing; trust
`≥ MAT`: rearm the ctimer; otherwise only a log line is printed. -/
def remove_neighbor (s : NodeState) (idx now : Nat) : NodeState :=
  match s.table.get? idx with
  | none => s
  | some n =>
      if n.addr = SINK then s
      else if n.trust ≥ MAT then
        { s with table := s.table.set idx { n with expiry := now + NEIGHBOR_TIMEOUT } }
      else s

/-- The gossip serialisation in `broadcast_process` (Mal_node.c:141-147):
entries in iteration order, zero-padded to `MAX_NEIGHBORS` records. -/
def snapshot (tbl : List Neighbor) : List (Addr × Int) :=
  (tbl.map fun n => (n.addr, n.trust)) ++
    List.replicate (MAX_NEIGHBORS - tbl.length) (⟨0, 0⟩, (0 : Int))

/-- An externally scheduled event delivered to the node: a gossip
broadcast, a multihop reception, a forward decision, or an entry's
ctimer expiry. -/
inductive Event where
  | ebroadcast : Addr → List (Addr × Int) → Nat → Event
  | erecv : Addr → Nat → Event
  | eforward : Addr → Nat → Nat → Event
  | eexpire : Nat → Nat → Event
deriving DecidableEq, Repr

/-- One handler invocation. -/
def step (s : NodeState) : Event → NodeState
  | .ebroadcast f v now => broadcast_recv s f v now
  | .erecv sender now => recv s sender now
  | .eforward prevhop rnd now => (forward s prevhop rnd now).1
  | .eexpire idx now => remove_neighbor s idx now

/-- Run a sequence of events. -/
def run (s : NodeState) (es : List Event) : NodeState := es.foldl step s

/-- The state after `multihop_process` initialises the node: empty
neighbor table. -/
def initState (self : Addr) : NodeState := ⟨self, []⟩

/-- A trust vector whose fields were produced by honest peers: every
trust lies in `[0, 100]`.  Non-broadcast events carry no vector. -/
def wireOK : Event → Prop
  | .ebroadcast _ v _ => ∀ p ∈ v, 0 ≤ p.2 ∧ p.2 ≤ 100
  | _ => True

/-- The trust trajectory of a single entry with address `ad` across one
processed pair: the average-on-mismatch step followed by the sink
clamp, exactly the effect of `mergePairEntry` on that entry's trust. -/
def pairStep (ad : Addr) (c : Int) (p : Addr × Int) : Int :=
  let c1 := if p.1 = ad ∧ p.2 ≠ c then Int.tdiv (c + p.2) 2 else c
  if ad = SINK then 100 else c1

-- sanity checks on concrete inputs
example : addr_is_blocked [⟨⟨5, 0⟩, 49, 0, 10⟩] ⟨5, 0⟩ = true := by decide

example :
    (broadcast_recv ⟨⟨9, 9⟩, [⟨⟨2, 0⟩, 100, 0, 10⟩, ⟨⟨3, 0⟩, 60, 0, 10⟩]⟩
        ⟨2, 0⟩ [(⟨3, 0⟩, 20)] 5).table.map (fun e => (e.addr, e.trust))
      = [(⟨2, 0⟩, 100), (⟨3, 0⟩, 40)] := by decide

example :
    ((forward ⟨⟨9, 9⟩, [⟨⟨4, 0⟩, 100, 0, 10⟩]⟩ ⟨4, 0⟩ 0 2).1.table.map
        fun e => (e.trust, e.lastReceived)) = [(99, 2)] := by decide

example :
    (run (initState ⟨5, 5⟩)
        [.ebroadcast SINK (List.replicate 16 (⟨0, 0⟩, 0)) 0,
         .eforward SINK 0 2]).table.map (fun e => (e.addr, e.trust))
      = [(SINK, 99)] := by decide

/-! ## Helper lemmas -/

theorem mergePairEntry_eq (p : Addr × Int) (e : Neighbor) :
    mergePairEntry p e = { e with trust := pairStep e.addr e.trust p } := by
  obtain ⟨a, t, l, x⟩ := e
  by_cases h2 : a = SINK
  · subst h2
    by_cases h1 : p.1 = SINK ∧ p.2 ≠ t <;> simp [mergePairEntry, pairStep, h1]
  · by_cases h1 : p.1 = a ∧ p.2 ≠ t <;> simp [mergePairEntry, pairStep, h1, h2]

theorem map_trust_id (tbl : List Neighbor) :
    (tbl.map fun e => { e with trust := e.trust }) = tbl := by
  induction tbl with
  | nil => rfl
  | cons e rest ih => simp [ih]

theorem foldl_mergePair_eq_map (P : List (Addr × Int)) :
    ∀ tbl : List Neighbor,
      P.foldl mergePair tbl =
        tbl.map fun e => { e with trust := P.foldl (pairStep e.addr) e.trust } := by
  induction P with
  | nil => intro tbl; exact (map_trust_id tbl).symm
  | cons p ps ih =>
      intro tbl
      calc (p :: ps).foldl mergePair tbl = ps.foldl mergePair (mergePair tbl p) := rfl
        _ = (mergePair tbl p).map
              (fun e => { e with trust := ps.foldl (pairStep e.addr) e.trust }) := ih _
        _ = tbl.map fun e =>
              { e with trust := (p :: ps).foldl (pairStep e.addr) e.trust } := by
            unfold mergePair
            rw [List.map_map]
            apply List.map_congr_left
            intro e _
            simp [Function.comp, mergePairEntry_eq]

/-- Pointwise characterisation of `update_table`: each entry keeps its
address, timestamp and timer, and its trust evolves by `pairStep` over
the processed prefix of the vector. -/
theorem update_table_eq_map (tbl : List Neighbor) (v : List (Addr × Int)) :
    update_table tbl v =
      tbl.map fun e =>
        { e with trust := (livePairs v).foldl (pairStep e.addr) e.trust } :=
  foldl_mergePair_eq_map (livePairs v) tbl

theorem update_table_map_addr (tbl : List Neighbor) (v : List (Addr × Int)) :
    (update_table tbl v).map (·.addr) = tbl.map (·.addr) := by
  rw [update_table_eq_map, List.map_map]; rfl

theorem update_table_length (tbl : List Neighbor) (v : List (Addr × Int)) :
    (update_table tbl v).length = tbl.length := by
  rw [update_table_eq_map, List.length_map]

theorem pairStep_sink (c : Int) (p : Addr × Int) : pairStep SINK c p = 100 := by
  simp [pairStep]

theorem foldl_pairStep_sink (P : List (Addr × Int)) (c : Int) (h : P ≠ []) :
    P.foldl (pairStep SINK) c = 100 := by
  induction P generalizing c with
  | nil => exact absurd rfl h
  | cons p ps ih =>
      rcases Decidable.em (ps = []) with h2 | h2
      · subst h2; simp [pairStep_sink]
      · exact ih (pairStep SINK c p) h2

theorem pairStep_range (ad : Addr) (c : Int) (p : Addr × Int)
    (hc : 0 ≤ c ∧ c ≤ 100) (hp : 0 ≤ p.2 ∧ p.2 ≤ 100) :
    0 ≤ pairStep ad c p ∧ pairStep ad c p ≤ 100 := by
  unfold pairStep
  by_cases h2 : ad = SINK
  · simp [h2]
  · by_cases h1 : p.1 = ad ∧ p.2 ≠ c
    · simp only [h1, h2, if_true, if_false]
      rw [Int.tdiv_eq_ediv (by omega) (by omega)]
      omega
    · simp [h1, h2, hc.1, hc.2]

theorem foldl_pairStep_range (ad : Addr) (P : List (Addr × Int)) :
    ∀ c : Int, (∀ p ∈ P, 0 ≤ p.2 ∧ p.2 ≤ 100) → 0 ≤ c ∧ c ≤ 100 →
      0 ≤ P.foldl (pairStep ad) c ∧ P.foldl (pairStep ad) c ≤ 100 := by
  induction P with
  | nil => intro c _ hc; simpa using hc
  | cons p ps ih =>
      intro c hP hc
      simp only [List.foldl_cons]
      exact ih _ (fun q hq => hP q (List.mem_cons_of_mem p hq))
        (pairStep_range ad c p hc (hP p (List.mem_cons_self p ps)))

theorem livePairs_subset (v : List (Addr × Int)) : ∀ p ∈ livePairs v, p ∈ v := by
  intro p hp
  exact List.take_subset MAX_NEIGHBORS v (List.takeWhile_subset _ hp)

theorem livePairs_trust_ne_zero (v : List (Addr × Int)) :
    ∀ p ∈ livePairs v, p.2 ≠ 0 := by
  intro p hp
  have := List.mem_takeWhile_imp hp
  simpa using this

theorem penalize_bounds (t : Int) (h1 : 49 < t) (h2 : t ≤ 100) :
    0 ≤ penalize t ∧ penalize t ≤ t ∧ penalize t ≤ 99 := by
  unfold penalize
  rw [Int.tdiv_eq_ediv (by omega) (by omega)]
  omega

theorem list_set_same {α : Type} (l : List α) (i : Nat) (a : α)
    (h : l.get? i = some a) : l.set i a = l := by
  apply List.ext_get?
  intro n
  by_cases hn : i = n
  · subst hn
    rw [List.get?_set_eq, h]
    rfl
  · rw [List.get?_set_ne _ _ hn]

/-! ## Claims -/

/-- C7: `addr_is_blocked` returns true iff the table holds an entry for
the queried address whose trust is strictly below 50; an address with
no entry is never blocked; concretely, with NT = {(5,0):49} the address
(5,0) is blocked. -/
theorem C7_is_blocked_spec (tbl : List Neighbor) (a : Addr) :
    (addr_is_blocked tbl a = true ↔ ∃ e, e ∈ tbl ∧ e.addr = a ∧ e.trust < 50) ∧
    ((∀ e, e ∈ tbl → e.addr ≠ a) → addr_is_blocked tbl a = false) ∧
    addr_is_blocked [⟨⟨5, 0⟩, 49, 0, 10⟩] ⟨5, 0⟩ = true := by
  refine ⟨?_, ?_, by decide⟩
  · unfold addr_is_blocked
    rw [List.any_eq_true]
    constructor
    · rintro ⟨e, he, hp⟩
      have h := of_decide_eq_true hp
      exact ⟨e, he, h.1.symm, by simpa [MAT] using h.2⟩
    · rintro ⟨e, he, h1, h2⟩
      exact ⟨e, he, decide_eq_true ⟨h1.symm, by simpa [MAT] using h2⟩⟩
  · intro h
    unfold addr_is_blocked
    rw [List.any_eq_false]
    intro e he
    simp only [decide_eq_true_eq, not_and]
    intro h1
    exact absurd h1.symm (h e he)

theorem C7_witness : addr_is_blocked [] ⟨5, 0⟩ = false :=
  (C7_is_blocked_spec [] ⟨5, 0⟩).2.1 (by simp)

/-- C6: a broadcast from a peer whose matching table entry has trust
below 50 is refused: the handler returns with the state — every entry's
trust, timestamp, timer, and the table membership — unchanged. -/
theorem C6_gossip_refused (s : NodeState) (f : Addr) (v : List (Addr × Int))
    (now : Nat) (e : Neighbor)
    (hfind : s.table.find? (fun n => decide (f = n.addr)) = some e)
    (hblocked : e.trust < 50) :
    broadcast_recv s f v now = s := by
  unfold broadcast_recv
  rw [hfind]
  simp [hblocked]

theorem C6_witness :
    (([⟨⟨6, 0⟩, 30, 0, 10⟩, ⟨⟨7, 0⟩, 80, 0, 10⟩] : List Neighbor).find?
        (fun n => decide ((⟨6, 0⟩ : Addr) = n.addr)) = some ⟨⟨6, 0⟩, 30, 0, 10⟩) ∧
    broadcast_recv ⟨⟨9, 9⟩, [⟨⟨6, 0⟩, 30, 0, 10⟩, ⟨⟨7, 0⟩, 80, 0, 10⟩]⟩
        ⟨6, 0⟩ [(⟨7, 0⟩, 10)] 50
      = ⟨⟨9, 9⟩, [⟨⟨6, 0⟩, 30, 0, 10⟩, ⟨⟨7, 0⟩, 80, 0, 10⟩]⟩ :=
  ⟨by decide,
   C6_gossip_refused ⟨⟨9, 9⟩, [⟨⟨6, 0⟩, 30, 0, 10⟩, ⟨⟨7, 0⟩, 80, 0, 10⟩]⟩
     ⟨6, 0⟩ [(⟨7, 0⟩, 10)] 50 ⟨⟨6, 0⟩, 30, 0, 10⟩ (by decide) (by decide)⟩

/-- C9: when the entry at position `idx` has its ctimer fire, no
address, trust or timestamp anywhere in the table changes; the sink
entry causes no action at all (no rearm); an entry with trust ≥ 50 only
has its timer rearmed 10 seconds from now; and a sub-threshold entry is
neither freed nor removed — the state is fully unchanged, so that entry
stays in the table and its address stays blocked. -/
theorem C9_expiry (s : NodeState) (idx now : Nat) (e : Neighbor)
    (he : s.table.get? idx = some e) :
    (((remove_neighbor s idx now).table.map fun n => (n.addr, n.trust, n.lastReceived))
        = s.table.map fun n => (n.addr, n.trust, n.lastReceived)) ∧
    (e.addr = SINK → remove_neighbor s idx now = s) ∧
    (e.addr ≠ SINK → 50 ≤ e.trust →
      (remove_neighbor s idx now).table
        = s.table.set idx { e with expiry := now + 10 }) ∧
    (e.addr ≠ SINK → e.trust < 50 →
      remove_neighbor s idx now = s ∧
      addr_is_blocked (remove_neighbor s idx now).table e.addr = true) := by
  have hmem : e ∈ s.table := List.get?_mem he
  refine ⟨?_, ?_, ?_, ?_⟩
  · unfold remove_neighbor
    rw [he]
    by_cases hs : e.addr = SINK
    · simp [hs]
    · by_cases ht : e.trust ≥ MAT
      · simp only [hs, ht, if_true, if_false, if_neg hs, if_pos ht]
        rw [List.map_set]
        exact list_set_same _ idx _ (by rw [List.get?_map, he]; rfl)
      · simp [hs, ht]
  · intro hs
    unfold remove_neighbor
    rw [he]
    simp [hs]
  · intro hs ht
    unfold remove_neighbor
    rw [he]
    simp only [if_neg hs, if_pos (show e.trust ≥ MAT by simpa [MAT] using ht)]
    rfl
  · intro hs ht
    have hstate : remove_neighbor s idx now = s := by
      unfold remove_neighbor
      rw [he]
      simp only [if_neg hs, if_neg (show ¬e.trust ≥ MAT by simp [MAT]; omega)]
    refine ⟨hstate, ?_⟩
    rw [hstate]
    unfold addr_is_blocked
    rw [List.any_eq_true]
    exact ⟨e, hmem, decide_eq_true ⟨rfl, by simpa [MAT] using ht⟩⟩

theorem C9_witness :
    (([⟨⟨8, 0⟩, 40, 0, 10⟩] : List Neighbor).get? 0 = some ⟨⟨8, 0⟩, 40, 0, 10⟩) ∧
    remove_neighbor ⟨⟨9, 9⟩, [⟨⟨8, 0⟩, 40, 0, 10⟩]⟩ 0 99
      = ⟨⟨9, 9⟩, [⟨⟨8, 0⟩, 40, 0, 10⟩]⟩ ∧
    addr_is_blocked
        (remove_neighbor ⟨⟨9, 9⟩, [⟨⟨8, 0⟩, 40, 0, 10⟩]⟩ 0 99).table ⟨8, 0⟩
      = true :=
  ⟨by decide,
   ((C9_expiry ⟨⟨9, 9⟩, [⟨⟨8, 0⟩, 40, 0, 10⟩]⟩ 0 99 ⟨⟨8, 0⟩, 40, 0, 10⟩
       (by decide)).2.2.2 (by decide) (by decide)).1,
   ((C9_expiry ⟨⟨9, 9⟩, [⟨⟨8, 0⟩, 40, 0, 10⟩]⟩ 0 99 ⟨⟨8, 0⟩, 40, 0, 10⟩
       (by decide)).2.2.2 (by decide) (by decide)).2⟩

theorem foldl_fixed {α β : Type} (f : β → α → β) (c : β) (P : List α)
    (h : ∀ p ∈ P, f c p = c) : P.foldl f c = c := by
  induction P with
  | nil => rfl
  | cons p ps ih =>
      rw [List.foldl_cons, h p (List.mem_cons_self p ps)]
      exact ih fun q hq => h q (List.mem_cons_of_mem p hq)

theorem snapshot_pair_mem (tbl : List Neighbor) (p : Addr × Int)
    (hp : p ∈ snapshot tbl) (hnz : p.2 ≠ 0) :
    ∃ n, n ∈ tbl ∧ p = (n.addr, n.trust) := by
  unfold snapshot at hp
  rcases List.mem_append.1 hp with h | h
  · rcases List.mem_map.1 h with ⟨n, hn, rfl⟩
    exact ⟨n, hn, rfl⟩
  · rw [List.eq_of_mem_replicate h] at hnz
    exact absurd rfl hnz

theorem nodup_addr_eq (tbl : List Neighbor) (hU : (tbl.map (·.addr)).Nodup)
    {m : Neighbor} (hm : m ∈ tbl) {i : Nat} (hi : i < tbl.length)
    (haddr : m.addr = (tbl.get ⟨i, hi⟩).addr) : m = tbl.get ⟨i, hi⟩ := by
  obtain ⟨⟨j, hj⟩, rfl⟩ := List.mem_iff_get.1 hm
  have hinj := List.nodup_iff_injective_get.1 hU
  have hji : (⟨j, by simpa using hj⟩ : Fin (tbl.map (·.addr)).length)
      = ⟨i, by simpa using hi⟩ := by
    apply hinj
    simp only [List.get_eq_getElem, List.getElem_map]
    exact haddr
  have : j = i := by simpa using congrArg Fin.val hji
  subst this
  rfl

/-- C3 (amended): an accepted merge processes the vector's pairs in
order up to (excluding) the first pair whose trust is 0; no entry is
inserted or removed, and every entry keeps its address, timestamp and
timer; each entry's trust evolves, pair by pair, by `pairStep`: the
average ⌊(trust + t)/2⌋ (truncated) when the pair's address matches the
entry and its trust differs, followed by a reset to 100 when the
entry's address is SINK.  Pairs whose address has no local entry change
no other entry.  Concretely, NT = {(2,0):100, (3,0):60} merged from the
trusted peer (2,0) with {(3,0):20} yields (3,0).trust = 40. -/
theorem C3_merge_step :
    (∀ (tbl : List Neighbor) (v : List (Addr × Int)),
        update_table tbl v =
          tbl.map fun e =>
            { e with trust := (livePairs v).foldl (pairStep e.addr) e.trust }) ∧
    ((broadcast_recv ⟨⟨9, 9⟩, [⟨⟨2, 0⟩, 100, 0, 10⟩, ⟨⟨3, 0⟩, 60, 0, 10⟩]⟩
        ⟨2, 0⟩ [(⟨3, 0⟩, 20)] 5).table.map fun e => (e.addr, e.trust))
      = [(⟨2, 0⟩, 100), (⟨3, 0⟩, 40)] :=
  ⟨update_table_eq_map, by decide⟩

/-- C3 as stated is false: merging the vector {(1,0):10} from a trusted
peer into a table whose SINK = (1,0) entry has trust 80 sets that trust
to 100 (the sink clamp), not to the claimed average ⌊(80+10)/2⌋ = 45. -/
theorem C3_counterexample :
    ((broadcast_recv ⟨⟨9, 9⟩, [⟨⟨2, 0⟩, 100, 0, 10⟩, ⟨SINK, 80, 0, 10⟩]⟩
        ⟨2, 0⟩ [(SINK, 10)] 5).table.map fun e => (e.addr, e.trust))
      = [(⟨2, 0⟩, 100), (SINK, 100)] ∧
    Int.tdiv (80 + 10) 2 = 45 ∧ (100 : Int) ≠ 45 := by decide

/-- C8: merging the table's own zero-padded snapshot (entries in
iteration order) leaves every entry's trust unchanged, except that an
entry for SINK may be reset to 100.  Addresses are assumed unique
(invariant 1 of the neighbor table). -/
theorem C8_merge_stability (tbl : List Neighbor)
    (hU : (tbl.map (·.addr)).Nodup) :
    ∀ i, i < tbl.length →
      ((update_table tbl (snapshot tbl)).get? i).map (·.trust)
          = (tbl.get? i).map (·.trust)
      ∨ ((tbl.get? i).map (·.addr) = some SINK ∧
         ((update_table tbl (snapshot tbl)).get? i).map (·.trust) = some 100) := by
  intro i hi
  have hget : tbl.get? i = some (tbl.get ⟨i, hi⟩) := List.get?_eq_get hi
  have heq : ∀ m : Neighbor, m = tbl.get ⟨i, hi⟩ →
      ((update_table tbl (snapshot tbl)).get? i).map (·.trust)
        = some ((livePairs (snapshot tbl)).foldl (pairStep m.addr) m.trust) := by
    intro m hm
    subst hm
    rw [update_table_eq_map, List.get?_map, hget]
    rfl
  have hmain := heq _ rfl
  by_cases hs : (tbl.get ⟨i, hi⟩).addr = SINK
  · rcases Decidable.em (livePairs (snapshot tbl) = []) with hP | hP
    · left
      rw [hmain, hP, hget, Option.map_some']
      rfl
    · right
      refine ⟨by rw [hget, Option.map_some', hs], ?_⟩
      rw [hmain, hs, foldl_pairStep_sink _ _ hP]
  · left
    rw [hmain, hget, Option.map_some']
    have hfix : (livePairs (snapshot tbl)).foldl
        (pairStep (tbl.get ⟨i, hi⟩).addr) (tbl.get ⟨i, hi⟩).trust
        = (tbl.get ⟨i, hi⟩).trust := by
      apply foldl_fixed
      intro p hp
      have hnz : p.2 ≠ 0 := livePairs_trust_ne_zero _ p hp
      have hpmem : p ∈ snapshot tbl := livePairs_subset _ p hp
      obtain ⟨n, hn, rfl⟩ := snapshot_pair_mem tbl p hpmem hnz
      by_cases hmatch : n.addr = (tbl.get ⟨i, hi⟩).addr ∧
          n.trust ≠ (tbl.get ⟨i, hi⟩).trust
      · exact absurd (congrArg Neighbor.trust
          (nodup_addr_eq tbl hU hn hi hmatch.1)) hmatch.2
      · have hred : pairStep (tbl.get ⟨i, hi⟩).addr (tbl.get ⟨i, hi⟩).trust
            (n.addr, n.trust)
            = if (tbl.get ⟨i, hi⟩).addr = SINK then 100
              else if n.addr = (tbl.get ⟨i, hi⟩).addr ∧
                  n.trust ≠ (tbl.get ⟨i, hi⟩).trust then
                Int.tdiv ((tbl.get ⟨i, hi⟩).trust + n.trust) 2
              else (tbl.get ⟨i, hi⟩).trust := rfl
        rw [hred, if_neg hs, if_neg hmatch]
    rw [hfix]

theorem C8_witness :
    ((([⟨⟨2, 0⟩, 100, 0, 10⟩, ⟨SINK, 60, 0, 10⟩] : List Neighbor).map
        (·.addr)).Nodup) ∧
    (((update_table [⟨⟨2, 0⟩, 100, 0, 10⟩, ⟨SINK, 60, 0, 10⟩]
          (snapshot [⟨⟨2, 0⟩, 100, 0, 10⟩, ⟨SINK, 60, 0, 10⟩])).get? 1).map
          (·.trust)
        = (([⟨⟨2, 0⟩, 100, 0, 10⟩, ⟨SINK, 60, 0, 10⟩] : List Neighbor).get? 1).map
          (·.trust)
      ∨ ((([⟨⟨2, 0⟩, 100, 0, 10⟩, ⟨SINK, 60, 0, 10⟩] : List Neighbor).get? 1).map
            (·.addr) = some SINK ∧
         ((update_table [⟨⟨2, 0⟩, 100, 0, 10⟩, ⟨SINK, 60, 0, 10⟩]
            (snapshot [⟨⟨2, 0⟩, 100, 0, 10⟩, ⟨SINK, 60, 0, 10⟩])).get? 1).map
            (·.trust) = some 100)) :=
  ⟨by decide,
   C8_merge_stability [⟨⟨2, 0⟩, 100, 0, 10⟩, ⟨SINK, 60, 0, 10⟩] (by decide)
     1 (by decide)⟩

theorem walkTo_eq_get? : ∀ (l : List Neighbor) (i : Nat), walkTo l i = l.get? i := by
  intro l
  induction l with
  | nil => intro i; cases i <;> rfl
  | cons n rest ih =>
      intro i
      cases i with
      | zero => rfl
      | succ j => exact ih j

theorem penalizeEntry_addr (prevhop : Addr) (now : Nat) (n : Neighbor) :
    (penalizeEntry prevhop now n).addr = n.addr := by
  unfold penalizeEntry
  by_cases h1 : prevhop = n.addr
  · by_cases h2 : elapsed now n.lastReceived < MINIMUM_DELAY ∧ n.trust > 49 <;>
      simp [h1, h2]
  · simp [h1]

theorem penalizeEntry_trust (prevhop : Addr) (now : Nat) (n : Neighbor) :
    (penalizeEntry prevhop now n).trust =
      if prevhop = n.addr ∧ elapsed now n.lastReceived < MINIMUM_DELAY ∧
          n.trust > 49 then
        penalize n.trust
      else n.trust := by
  unfold penalizeEntry
  by_cases h1 : prevhop = n.addr
  · by_cases h2 : elapsed now n.lastReceived < MINIMUM_DELAY ∧ n.trust > 49 <;>
      simp [h1, h2]
  · simp [h1]

theorem penalizeEntry_range (prevhop : Addr) (now : Nat) (n : Neighbor)
    (h : 0 ≤ n.trust ∧ n.trust ≤ 100) :
    0 ≤ (penalizeEntry prevhop now n).trust ∧
      (penalizeEntry prevhop now n).trust ≤ 100 := by
  rw [penalizeEntry_trust]
  by_cases h2 : prevhop = n.addr ∧ elapsed now n.lastReceived < MINIMUM_DELAY ∧
      n.trust > 49
  · rw [if_pos h2]
    have hb := penalize_bounds n.trust h2.2.2 h.2
    exact ⟨hb.1, le_trans hb.2.2 (by norm_num)⟩
  · rw [if_neg h2]
    exact h

theorem forward_table (s : NodeState) (prevhop : Addr) (rnd now : Nat)
    (hcond : ¬(prevhop ≠ s.selfAddr ∧ addr_is_blocked s.table prevhop = true)) :
    (forward s prevhop rnd now).1.table
      = s.table.map (penalizeEntry prevhop now) := by
  unfold forward
  rw [if_neg hcond]
  by_cases hlen : 0 < s.table.length
  · simp [hlen]
  · simp [hlen]

theorem elapsed_eq (now last : Nat) (h1 : last ≤ now)
    (h2 : now - last < 2 ^ 64) : elapsed now last = now - last := by
  unfold elapsed
  have hp : (2 : Nat) ^ 64 = 18446744073709551616 := by norm_num
  omega

/-- C5: the forward handler returns no next hop when the previous hop
is a different node and is blocked; otherwise it returns the address of
the (rnd mod length)-th table entry in iteration order — the previous
hop and the destination are not excluded from the candidates — and it
returns no next hop when the table is empty. -/
theorem C5_forward_choice (s : NodeState) (prevhop : Addr) (rnd now : Nat) :
    (forward s prevhop rnd now).2 =
      if prevhop ≠ s.selfAddr ∧ addr_is_blocked s.table prevhop = true then none
      else (s.table.get? (rnd % s.table.length)).map (·.addr) := by
  by_cases hb : prevhop ≠ s.selfAddr ∧ addr_is_blocked s.table prevhop = true
  · rw [if_pos hb]
    unfold forward
    rw [if_pos hb]
  · rw [if_neg hb]
    unfold forward
    rw [if_neg hb]
    by_cases hlen : 0 < s.table.length
    · simp only [List.length_map, hlen, if_true, walkTo_eq_get?, List.get?_map,
        Option.map_map]
      cases s.table.get? (rnd % s.table.length) with
      | none => rfl
      | some n => simp [penalizeEntry_addr, Function.comp]
    · have hnil : s.table = [] := List.eq_nil_of_length_eq_zero (by omega)
      rw [hnil]
      simp

/-- C1 (amended): the merge path does re-establish the sink invariant —
after `update_table` processes at least one pair of a received vector,
every entry whose address is SINK has trust exactly 100, and a merge
that processes no pair leaves the table unchanged.  The forward
handler's rapid-forward-penalty step, however, does NOT preserve
`trust = 100` for a SINK entry (see the counterexample trace, which
even drives the SINK entry to a blocked state). -/
theorem C1_sink_clamped_by_merge (tbl : List Neighbor)
    (v : List (Addr × Int)) :
    (livePairs v ≠ [] →
      ∀ e ∈ update_table tbl v, e.addr = SINK → e.trust = 100) ∧
    (livePairs v = [] → update_table tbl v = tbl) := by
  constructor
  · intro hP e he hs
    rw [update_table_eq_map] at he
    obtain ⟨m, hm, rfl⟩ := List.mem_map.1 he
    have hms : m.addr = SINK := hs
    show (livePairs v).foldl (pairStep m.addr) m.trust = 100
    rw [hms]
    exact foldl_pairStep_sink _ _ hP
  · intro hP
    unfold update_table
    rw [hP]
    rfl

theorem C1_witness :
    livePairs [((⟨2, 0⟩ : Addr), (7 : Int))] ≠ [] ∧
    (⟨SINK, 100, 0, 10⟩ : Neighbor).trust = 100 :=
  ⟨by decide,
   (C1_sink_clamped_by_merge [⟨SINK, 80, 0, 10⟩] [(⟨2, 0⟩, 7)]).1 (by decide)
     ⟨SINK, 100, 0, 10⟩ (by decide) (by decide)⟩

set_option maxRecDepth 100000 in
/-- C1 fails as stated: from the initial empty table, a broadcast from
the sink (1,0) inserts a SINK entry with trust 100, and 60 forward
events with prevhop = SINK delivered 2 seconds apart repeatedly apply
the rapid-forward penalty to that entry — the handlers return with the
SINK entry's trust at 49 ≠ 100, and the sink address ends up blocked. -/
theorem C1_counterexample :
    ((run (initState ⟨5, 5⟩)
          (Event.ebroadcast SINK (List.replicate 16 (⟨0, 0⟩, 0)) 0 ::
            (List.range 60).map fun k =>
              Event.eforward SINK 0 (2 * (k + 1)))).table.map
        fun e => (e.addr, e.trust)) = [(SINK, 49)] ∧
    addr_is_blocked
        (run (initState ⟨5, 5⟩)
          (Event.ebroadcast SINK (List.replicate 16 (⟨0, 0⟩, 0)) 0 ::
            (List.range 60).map fun k =>
              Event.eforward SINK 0 (2 * (k + 1)))).table SINK = true := by
  decide

theorem update_table_range (tbl : List Neighbor) (v : List (Addr × Int))
    (ht : ∀ e ∈ tbl, 0 ≤ e.trust ∧ e.trust ≤ 100)
    (hv : ∀ p ∈ v, 0 ≤ p.2 ∧ p.2 ≤ 100) :
    ∀ e ∈ update_table tbl v, 0 ≤ e.trust ∧ e.trust ≤ 100 := by
  intro e he
  rw [update_table_eq_map] at he
  obtain ⟨m, hm, rfl⟩ := List.mem_map.1 he
  show 0 ≤ (livePairs v).foldl (pairStep m.addr) m.trust ∧
    (livePairs v).foldl (pairStep m.addr) m.trust ≤ 100
  exact foldl_pairStep_range m.addr (livePairs v) m.trust
    (fun p hp => hv p (livePairs_subset v p hp)) (ht m hm)

/-- C2 (amended): the bound 0 ≤ trust ≤ 100 holds after every handler
invocation provided any merged trust vector carries fields within
[0, 100] (as the vectors serialised by honest peers do).  For a vector
with arbitrary native integers taken from the wire the bound is
violated (see the counterexample). -/
theorem C2_trust_range (s : NodeState) (ev : Event)
    (hs : ∀ e ∈ s.table, 0 ≤ e.trust ∧ e.trust ≤ 100) (hv : wireOK ev) :
    ∀ e ∈ (step s ev).table, 0 ≤ e.trust ∧ e.trust ≤ 100 := by
  cases ev with
  | ebroadcast f v now =>
      have hv2 : ∀ p ∈ v, 0 ≤ p.2 ∧ p.2 ≤ 100 := hv
      show ∀ e ∈ (broadcast_recv s f v now).table, _
      unfold broadcast_recv
      cases hfind : s.table.find? (fun e => decide (f = e.addr)) with
      | some e0 =>
          simp only [hfind]
          by_cases htr : e0.trust < 50
          · simp only [if_pos htr]
            exact hs
          · simp only [if_neg htr]
            exact update_table_range s.table v hs hv2
      | none =>
          simp only [hfind]
          by_cases hroom : s.table.length < MAX_NEIGHBORS
          · simp only [if_pos hroom]
            apply update_table_range _ v _ hv2
            intro e he
            rcases List.mem_append.1 he with h | h
            · exact hs e h
            · rw [List.mem_singleton.1 h]
              norm_num
          · simp only [if_neg hroom]
            exact update_table_range s.table v hs hv2
  | erecv sender now =>
      show ∀ e ∈ (recv s sender now).table, _
      unfold recv
      by_cases hb : addr_is_blocked s.table sender = true
      · simp only [if_pos hb]
        exact hs
      · simp only [if_neg hb]
        intro e he
        obtain ⟨m, hm, rfl⟩ := List.mem_map.1 he
        have htr : (if sender = m.addr then
            { m with expiry := now + NEIGHBOR_TIMEOUT } else m).trust
            = m.trust := by
          by_cases hm2 : sender = m.addr <;> simp [hm2]
        rw [htr]
        exact hs m hm
  | eforward prevhop rnd now =>
      show ∀ e ∈ (forward s prevhop rnd now).1.table, _
      by_cases hb : prevhop ≠ s.selfAddr ∧ addr_is_blocked s.table prevhop = true
      · unfold forward
        rw [if_pos hb]
        exact hs
      · rw [forward_table s prevhop rnd now hb]
        intro e he
        obtain ⟨m, hm, rfl⟩ := List.mem_map.1 he
        exact penalizeEntry_range prevhop now m (hs m hm)
  | eexpire idx now =>
      show ∀ e ∈ (remove_neighbor s idx now).table, _
      unfold remove_neighbor
      cases hg : s.table.get? idx with
      | none =>
          simp only [hg]
          exact hs
      | some n =>
          simp only [hg]
          by_cases h1 : n.addr = SINK
          · simp only [if_pos h1]
            exact hs
          · simp only [if_neg h1]
            by_cases h2 : n.trust ≥ MAT
            · simp only [if_pos h2]
              intro e he
              rcases List.mem_or_eq_of_mem_set he with h | h
              · exact hs e h
              · rw [h]
                exact hs n (List.get?_mem hg)
            · simp only [if_neg h2]
              exact hs

theorem C2_witness :
    (∀ e ∈ ([⟨⟨2, 0⟩, 100, 0, 10⟩] : List Neighbor), 0 ≤ e.trust ∧ e.trust ≤ 100) ∧
    wireOK (Event.ebroadcast ⟨2, 0⟩ [(⟨2, 0⟩, 40)] 3) ∧
    ∀ e ∈ (step ⟨⟨9, 9⟩, [⟨⟨2, 0⟩, 100, 0, 10⟩]⟩
        (Event.ebroadcast ⟨2, 0⟩ [(⟨2, 0⟩, 40)] 3)).table,
      0 ≤ e.trust ∧ e.trust ≤ 100 :=
  ⟨by decide,
   (by decide : ∀ p ∈ [((⟨2, 0⟩ : Addr), (40 : Int))], 0 ≤ p.2 ∧ p.2 ≤ 100),
   C2_trust_range ⟨⟨9, 9⟩, [⟨⟨2, 0⟩, 100, 0, 10⟩]⟩
     (Event.ebroadcast ⟨2, 0⟩ [(⟨2, 0⟩, 40)] 3) (by decide)
     (by decide : ∀ p ∈ [((⟨2, 0⟩ : Addr), (40 : Int))], 0 ≤ p.2 ∧ p.2 ≤ 100)⟩

/-- C2 fails as stated: from the initial empty table, a broadcast from
(2,0) registers that neighbor with trust 100, and a second broadcast
from the now-trusted (2,0) carrying the wire pair ((2,0), 300) — an
arbitrary native integer — is merged, setting the entry's trust to
(100 + 300) / 2 = 200, outside [0, 100]. -/
theorem C2_counterexample :
    ((run (initState ⟨5, 5⟩)
          [Event.ebroadcast ⟨2, 0⟩ (List.replicate 16 (⟨0, 0⟩, 0)) 0,
           Event.ebroadcast ⟨2, 0⟩ [(⟨2, 0⟩, 300)] 1]).table.map
        fun e => (e.addr, e.trust)) = [(⟨2, 0⟩, 200)] ∧
    ¬(∀ e ∈ (run (initState ⟨5, 5⟩)
          [Event.ebroadcast ⟨2, 0⟩ (List.replicate 16 (⟨0, 0⟩, 0)) 0,
           Event.ebroadcast ⟨2, 0⟩ [(⟨2, 0⟩, 300)] 1]).table,
        0 ≤ e.trust ∧ e.trust ≤ 100) := by decide

/-- C4 (amended): the penalty step of the forward handler runs only
when the handler does not drop at the blocked-prevhop check.  In that
case every entry matching prevhop is updated: when
now − last_forward_ts < 5 and trust > 49 its trust becomes
⌊trust·99/100⌋ (the exact value of the C double multiplication by 0.99
on [0,100]), otherwise its trust is unchanged; in both cases
last_forward_ts becomes now and the timer is rearmed; other entries are
untouched.  When prevhop ≠ self and is_blocked(prevhop), the handler
returns with the whole state — including last_forward_ts — unchanged.
The penalty keeps trust within [0,100] and never increases it. -/
theorem C4_penalty (s : NodeState) (prevhop : Addr) (rnd now : Nat)
    (hts : ∀ e ∈ s.table, e.lastReceived ≤ now ∧ now - e.lastReceived < 2 ^ 64)
    (hrange : ∀ e ∈ s.table, 0 ≤ e.trust ∧ e.trust ≤ 100) :
    ((prevhop = s.selfAddr ∨ addr_is_blocked s.table prevhop = false) →
      (forward s prevhop rnd now).1.table = s.table.map fun e =>
        if prevhop = e.addr then
          { e with
            trust := if now - e.lastReceived < 5 ∧ e.trust > 49 then
                Int.tdiv (e.trust * 99) 100
              else e.trust,
            lastReceived := now, expiry := now + 10 }
        else e) ∧
    (prevhop ≠ s.selfAddr → addr_is_blocked s.table prevhop = true →
      (forward s prevhop rnd now).1 = s) ∧
    (∀ e ∈ (forward s prevhop rnd now).1.table, 0 ≤ e.trust ∧ e.trust ≤ 100) ∧
    (∀ i, ∀ e e2 : Neighbor, s.table.get? i = some e →
      (forward s prevhop rnd now).1.table.get? i = some e2 →
      e2.trust ≤ e.trust) := by
  refine ⟨?_, ?_, ?_, ?_⟩
  · intro hnb
    have hcond : ¬(prevhop ≠ s.selfAddr ∧
        addr_is_blocked s.table prevhop = true) := by
      rcases hnb with h | h
      · exact fun hc => hc.1 h
      · exact fun hc => by rw [h] at hc; exact Bool.false_ne_true hc.2
    rw [forward_table s prevhop rnd now hcond]
    apply List.map_congr_left
    intro e he
    have helapsed := elapsed_eq now e.lastReceived (hts e he).1 (hts e he).2
    by_cases h1 : prevhop = e.addr
    · by_cases h2 : now - e.lastReceived < 5 ∧ e.trust > 49
      · have h2l : elapsed now e.lastReceived < MINIMUM_DELAY ∧ e.trust > 49 := by
          rw [helapsed]
          exact h2
        simp [penalizeEntry, h1, h2l, h2, penalize, NEIGHBOR_TIMEOUT]
      · have h2l : ¬(elapsed now e.lastReceived < MINIMUM_DELAY ∧
            e.trust > 49) := by
          rw [helapsed]
          exact h2
        simp [penalizeEntry, h1, h2l, h2, NEIGHBOR_TIMEOUT]
    · simp [penalizeEntry, h1]
  · intro h1 h2
    unfold forward
    rw [if_pos ⟨h1, h2⟩]
  · by_cases hcond : prevhop ≠ s.selfAddr ∧ addr_is_blocked s.table prevhop = true
    · unfold forward
      rw [if_pos hcond]
      exact hrange
    · rw [forward_table s prevhop rnd now hcond]
      intro e he
      obtain ⟨m, hm, rfl⟩ := List.mem_map.1 he
      exact penalizeEntry_range prevhop now m (hrange m hm)
  · intro i e e2 hge hge2
    by_cases hcond : prevhop ≠ s.selfAddr ∧ addr_is_blocked s.table prevhop = true
    · unfold forward at hge2
      rw [if_pos hcond] at hge2
      rw [hge] at hge2
      rw [(Option.some_inj.1 hge2).symm]
    · rw [forward_table s prevhop rnd now hcond, List.get?_map, hge] at hge2
      have he2 : e2 = penalizeEntry prevhop now e := (Option.some_inj.1 hge2).symm
      rw [he2, penalizeEntry_trust]
      by_cases hp : prevhop = e.addr ∧ elapsed now e.lastReceived < MINIMUM_DELAY ∧
          e.trust > 49
      · rw [if_pos hp]
        exact (penalize_bounds e.trust hp.2.2
          (hrange e (List.get?_mem hge)).2).2.1
      · rw [if_neg hp]

/-- C4 fails as stated: with NT = {(4,0): trust 30, last_forward_ts 0},
a forward with prevhop = (4,0) at time 2 drops at the blocked-prevhop
check before the penalty step, so the entry's last_forward_ts stays 0
instead of being set to now = 2. -/
theorem C4_counterexample :
    (forward ⟨⟨9, 9⟩, [⟨⟨4, 0⟩, 30, 0, 10⟩]⟩ ⟨4, 0⟩ 0 2).1
      = ⟨⟨9, 9⟩, [⟨⟨4, 0⟩, 30, 0, 10⟩]⟩ ∧
    ((forward ⟨⟨9, 9⟩, [⟨⟨4, 0⟩, 30, 0, 10⟩]⟩ ⟨4, 0⟩ 0 2).1.table.map
        fun e => e.lastReceived) = [0] ∧
    (0 : Nat) ≠ 2 := by decide

theorem C4_witness :
    (forward ⟨⟨9, 9⟩, [⟨⟨4, 0⟩, 100, 0, 10⟩]⟩ ⟨4, 0⟩ 0 2).1.table
      = [⟨⟨4, 0⟩, 99, 2, 12⟩] := by
  rw [(C4_penalty ⟨⟨9, 9⟩, [⟨⟨4, 0⟩, 100, 0, 10⟩]⟩ ⟨4, 0⟩ 0 2
        (by decide) (by decide)).1 (Or.inr (by decide))]
  decide

theorem get?_map_addr (l : List Neighbor) (f : Neighbor → Neighbor)
    (hf : ∀ n, (f n).addr = n.addr) (i : Nat) :
    ((l.map f).get? i).map (·.addr) = (l.get? i).map (·.addr) := by
  rw [List.get?_map]
  cases l.get? i with
  | none => rfl
  | some n => simp [hf]

theorem update_table_get?_addr (tbl : List Neighbor) (v : List (Addr × Int))
    (i : Nat) :
    ((update_table tbl v).get? i).map (·.addr) = (tbl.get? i).map (·.addr) := by
  rw [update_table_eq_map]
  exact get?_map_addr tbl
    (fun e => { e with trust := (livePairs v).foldl (pairStep e.addr) e.trust })
    (fun n => rfl) i

/-- C10: no handler ever removes a neighbor-table entry.  For each of
the broadcast-receive handler, the unicast-receive handler, the forward
handler, and the expiry callback, every entry present before the call
is still present at the same position with the same address afterwards;
the length never shrinks and never exceeds MAX_NEIGHBORS = 16. -/
theorem C10_no_removal (s : NodeState) (ev : Event)
    (hlen : s.table.length ≤ 16) :
    (∀ i, i < s.table.length →
      ((step s ev).table.get? i).map (·.addr)
        = (s.table.get? i).map (·.addr)) ∧
    s.table.length ≤ (step s ev).table.length ∧
    (step s ev).table.length ≤ 16 := by
  cases ev with
  | ebroadcast f v now =>
      show (∀ i, i < s.table.length →
          ((broadcast_recv s f v now).table.get? i).map (·.addr)
            = (s.table.get? i).map (·.addr)) ∧
        s.table.length ≤ (broadcast_recv s f v now).table.length ∧
        (broadcast_recv s f v now).table.length ≤ 16
      unfold broadcast_recv
      cases hfind : s.table.find? (fun e => decide (f = e.addr)) with
      | some e0 =>
          simp only [hfind]
          by_cases htr : e0.trust < 50
          · simp only [if_pos htr]
            exact ⟨fun i _ => by trivial, le_refl _, hlen⟩
          · simp only [if_neg htr]
            exact ⟨fun i _ => update_table_get?_addr s.table v i,
              le_of_eq (update_table_length s.table v).symm,
              by rw [update_table_length]; exact hlen⟩
      | none =>
          simp only [hfind]
          by_cases hroom : s.table.length < MAX_NEIGHBORS
          · simp only [if_pos hroom]
            refine ⟨?_, ?_, ?_⟩
            · intro i hi
              rw [update_table_get?_addr]
              rw [List.get?_append hi]
            · rw [update_table_length, List.length_append]
              simp
            · rw [update_table_length, List.length_append]
              have : MAX_NEIGHBORS = 16 := rfl
              simp only [List.length_singleton]
              omega
          · simp only [if_neg hroom]
            exact ⟨fun i _ => update_table_get?_addr s.table v i,
              le_of_eq (update_table_length s.table v).symm,
              by rw [update_table_length]; exact hlen⟩
  | erecv sender now =>
      show (∀ i, i < s.table.length →
          ((recv s sender now).table.get? i).map (·.addr)
            = (s.table.get? i).map (·.addr)) ∧
        s.table.length ≤ (recv s sender now).table.length ∧
        (recv s sender now).table.length ≤ 16
      unfold recv
      by_cases hb : addr_is_blocked s.table sender = true
      · simp only [if_pos hb]
        exact ⟨fun i _ => by trivial, le_refl _, hlen⟩
      · simp only [if_neg hb]
        refine ⟨?_, ?_, ?_⟩
        · intro i hi
          apply get?_map_addr
          intro n
          by_cases hm : sender = n.addr <;> simp [hm]
        · rw [List.length_map]
        · rw [List.length_map]
          exact hlen
  | eforward prevhop rnd now =>
      show (∀ i, i < s.table.length →
          ((forward s prevhop rnd now).1.table.get? i).map (·.addr)
            = (s.table.get? i).map (·.addr)) ∧
        s.table.length ≤ (forward s prevhop rnd now).1.table.length ∧
        (forward s prevhop rnd now).1.table.length ≤ 16
      by_cases hcond : prevhop ≠ s.selfAddr ∧
          addr_is_blocked s.table prevhop = true
      · unfold forward
        rw [if_pos hcond]
        exact ⟨fun i _ => by trivial, le_refl _, hlen⟩
      · rw [forward_table s prevhop rnd now hcond]
        refine ⟨?_, ?_, ?_⟩
        · intro i hi
          exact get?_map_addr s.table _ (penalizeEntry_addr prevhop now) i
        · rw [List.length_map]
        · rw [List.length_map]
          exact hlen
  | eexpire idx now =>
      show (∀ i, i < s.table.length →
          ((remove_neighbor s idx now).table.get? i).map (·.addr)
            = (s.table.get? i).map (·.addr)) ∧
        s.table.length ≤ (remove_neighbor s idx now).table.length ∧
        (remove_neighbor s idx now).table.length ≤ 16
      unfold remove_neighbor
      cases hg : s.table.get? idx with
      | none =>
          simp only [hg]
          exact ⟨fun i _ => by trivial, le_refl _, hlen⟩
      | some n =>
          simp only [hg]
          by_cases h1 : n.addr = SINK
          · simp only [if_pos h1]
            exact ⟨fun i _ => by trivial, le_refl _, hlen⟩
          · simp only [if_neg h1]
            by_cases h2 : n.trust ≥ MAT
            · simp only [if_pos h2]
              refine ⟨?_, ?_, ?_⟩
              · intro i hi
                by_cases hidx : idx = i
                · subst hidx
                  rw [List.get?_set_eq, hg]
                  rfl
                · rw [List.get?_set_ne _ _ hidx]
              · rw [List.length_set]
              · rw [List.length_set]
                exact hlen
            · simp only [if_neg h2]
              exact ⟨fun i _ => by trivial, le_refl _, hlen⟩

theorem C10_witness :
    (⟨⟨9, 9⟩, [⟨⟨2, 0⟩, 100, 0, 10⟩]⟩ : NodeState).table.length ≤ 16 ∧
    ((step ⟨⟨9, 9⟩, [⟨⟨2, 0⟩, 100, 0, 10⟩]⟩
        (Event.ebroadcast ⟨3, 0⟩ (List.replicate 16 (⟨0, 0⟩, 0)) 7)).table.get?
          0).map (·.addr)
      = ((⟨⟨9, 9⟩, [⟨⟨2, 0⟩, 100, 0, 10⟩]⟩ : NodeState).table.get? 0).map
          (·.addr) ∧
    (⟨⟨9, 9⟩, [⟨⟨2, 0⟩, 100, 0, 10⟩]⟩ : NodeState).table.length ≤
      (step ⟨⟨9, 9⟩, [⟨⟨2, 0⟩, 100, 0, 10⟩]⟩
        (Event.ebroadcast ⟨3, 0⟩ (List.replicate 16 (⟨0, 0⟩, 0)) 7)).table.length ∧
    (step ⟨⟨9, 9⟩, [⟨⟨2, 0⟩, 100, 0, 10⟩]⟩
        (Event.ebroadcast ⟨3, 0⟩ (List.replicate 16 (⟨0, 0⟩, 0)) 7)).table.length
      ≤ 16 :=
  ⟨by decide,
   (C10_no_removal ⟨⟨9, 9⟩, [⟨⟨2, 0⟩, 100, 0, 10⟩]⟩
       (Event.ebroadcast ⟨3, 0⟩ (List.replicate 16 (⟨0, 0⟩, 0)) 7)
       (by decide)).1 0 (by decide),
   (C10_no_removal ⟨⟨9, 9⟩, [⟨⟨2, 0⟩, 100, 0, 10⟩]⟩
       (Event.ebroadcast ⟨3, 0⟩ (List.replicate 16 (⟨0, 0⟩, 0)) 7)
       (by decide)).2.1,
   (C10_no_removal ⟨⟨9, 9⟩, [⟨⟨2, 0⟩, 100, 0, 10⟩]⟩
       (Event.ebroadcast ⟨3, 0⟩ (List.replicate 16 (⟨0, 0⟩, 0)) 7)
       (by decide)).2.2⟩
